import Mathlib

/-!
Shallow embedding of the GitHub-telemetry ingestion pipeline
(scraper, sliding-window rate limiter, LRU+TTL cache, retry policy,
ClickHouse writer) together with theorems checking the specification's
claims against this embedding.

Numeric conventions: machine integers are modelled by Nat/Int (Python
ints are unbounded, so no wraparound is modelled); wall-clock readings
are modelled by an arbitrary linearly ordered additive group (the
witnesses instantiate it at Int) where only ordering and subtraction of
times matter; fallible code returns Except/Option.
-/

/-! ### Error hierarchy (src/2/src/exceptions.py) -/

/-- Default message substituted by validate_response when the error body
has no message field. -/
def unknownErrorMsg : String := "Unknown error"

/-- Message substituted when the error body is not valid JSON
(scraper.py line 137). -/
def parseFailMsg : String := "Failed to parse error response"

/-- Literal compared against the X-RateLimit-Remaining header. -/
def zeroStr : String := "0"

/-- Default value of the X-RateLimit-Remaining header
(scraper.py line 144). -/
def oneStr : String := "1"

/-- The exception hierarchy of src/2/src/exceptions.py.  Every concrete
subclass fixes its status code (400/401/403/404/409/422), so only the
two classes that carry a variable status keep a status field; the
RateLimit error also carries the optional reset epoch. -/
inductive GitHubAPIError where
  | badRequest (message : String) (url : String)
  | unauthorized (message : String) (url : String)
  | rateLimited (message : String) (url : String) (reset_time : Option ℤ)
  | forbidden (message : String) (url : String)
  | notFound (message : String) (url : String)
  | conflict (message : String) (url : String)
  | validation (message : String) (url : String)
  | serverError (status_code : ℕ) (message : String) (url : String)
  | generic (status_code : ℕ) (message : String) (url : String)
deriving DecidableEq

/-! ### Response validation (src/3/src/scraper.py, _validate_response) -/

/-- Abstraction of an aiohttp response as _validate_response consumes it:
the HTTP status, the url, the two rate-limit headers (the reset header
already parsed to an integer epoch), whether the body parsed as JSON, the
optional message field of the error body, and the parsed JSON payload. -/
structure HttpResponse (α : Type) where
  status : ℕ
  url : String
  remainingHeader : Option String
  resetHeader : Option ℤ
  bodyOk : Bool
  bodyMessage : Option String
  bodyJson : α

/-- Message extraction of _validate_response lines 133-137: the message
field of the parsed error body with a default, or a fixed fallback when
the body is not JSON. -/
def errorMessage (bodyOk : Bool) (bodyMessage : Option String) : String :=
  if bodyOk then bodyMessage.getD unknownErrorMsg else parseFailMsg

/-- Shallow embedding of GithubReposScrapper._validate_response
(scraper.py lines 128-163): 2xx returns the parsed body, otherwise the
status is mapped to an exception; 403 inspects X-RateLimit-Remaining
(defaulting to 1) and raises RateLimited exactly when it equals 0. -/
def validateResponse {α : Type} (r : HttpResponse α) : Except GitHubAPIError α :=
  if 200 ≤ r.status ∧ r.status < 300 then .ok r.bodyJson
  else
    let message := errorMessage r.bodyOk r.bodyMessage
    if r.status = 400 then .error (.badRequest message r.url)
    else if r.status = 401 then .error (.unauthorized message r.url)
    else if r.status = 403 then
      let remaining := r.remainingHeader.getD oneStr
      if remaining = zeroStr then .error (.rateLimited message r.url r.resetHeader)
      else .error (.forbidden message r.url)
    else if r.status = 404 then .error (.notFound message r.url)
    else if r.status = 409 then .error (.conflict message r.url)
    else if r.status = 422 then .error (.validation message r.url)
    else if 500 ≤ r.status ∧ r.status < 600 then .error (.serverError r.status message r.url)
    else .error (.generic r.status message r.url)

/-! ### Retry policy (src/3/src/scraper.py, _make_request_retry) -/

/-- What one iteration of the retry loop does after catching an
exception: re-raise as RetryFailed, sleep some seconds and retry, or
fall through to the next iteration at once. -/
inductive RetryAction where
  | raiseRetryFailed
  | sleepRetry (seconds : ℤ)
  | retryNow
deriving DecidableEq

/-- Shallow embedding of the GitHubAPIRateLimitError handler of
_make_request_retry (scraper.py lines 215-229), for attempt index
retry (0-based) out of max_retries: the final attempt re-raises; then
the code compares the caught reset_time itself (an absolute epoch)
against wait_reset_sec_max; then, when reset_time is truthy, it sleeps
reset_time - now + 1 seconds if that is positive. -/
def handleRateLimited (retry max_retries : ℕ) (reset_time : Option ℤ)
    (now wait_reset_sec_max : ℤ) : RetryAction :=
  if retry = max_retries - 1 then .raiseRetryFailed
  else
    match reset_time with
    | none => .retryNow
    | some rt =>
      if wait_reset_sec_max < rt then .raiseRetryFailed
      else if rt ≠ 0 then
        if 0 < rt - now + 1 then .sleepRetry (rt - now + 1) else .retryNow
      else .retryNow

/-- Modelled from the spec's words (for comparison with the code's
handleRateLimited): give up when reset_time - now exceeds
wait_reset_sec_max, otherwise sleep max 0 (reset_time - now + 1) and
retry; the final attempt raises RetryFailed. -/
def handleRateLimitedSpec (retry max_retries : ℕ) (reset_time : Option ℤ)
    (now wait_reset_sec_max : ℤ) : RetryAction :=
  if retry = max_retries - 1 then .raiseRetryFailed
  else
    match reset_time with
    | none => .retryNow
    | some rt =>
      if wait_reset_sec_max < rt - now then .raiseRetryFailed
      else .sleepRetry (max 0 (rt - now + 1))

/-- Result of running the retry loop when every failure is a 5xx
GitHubAPIServerError: either some attempt returned a payload, or the
final attempt raised RetryFailed, or max_retries was zero and the loop
body never ran (the function then returns None). -/
inductive RetryOutcome (α : Type) where
  | success (payload : α)
  | retryFailed
  | exhausted
deriving DecidableEq

/-- Shallow embedding of the for-retry-in-range(max_retries) loop of
_make_request_retry restricted to server-error failures
(scraper.py lines 206-213 and 231-238).  The list holds the outcome of
each remaining attempt (some payload for a 2xx, none for a 5xx);
attempt is the current 0-based retry index.  Returns the outcome, the
number of attempts made, and the list of backoff sleeps performed
(2 ^ retry seconds after each failed non-final attempt). -/
def serverErrorRetry {α : Type} (attempt : ℕ) :
    List (Option α) → RetryOutcome α × ℕ × List ℕ
  | [] => (.exhausted, 0, [])
  | some payload :: _ => (.success payload, 1, [])
  | [none] => (.retryFailed, 1, [])
  | none :: rest =>
    let r := serverErrorRetry (attempt + 1) rest
    (r.1, r.2.1 + 1, (2 ^ attempt) :: r.2.2)

/-! ### Sliding-window rate limiter (src/2/src/rate_limit.py) -/

/-- The head-pruning while-loop of SlidingWindowDequeRateLimiter.acquire
(rate_limit.py lines 70-71): pop timestamps from the head while the
clock reading t is more than time_window_seconds past them. -/
def slidingPrune {α : Type} [LinearOrderedAddCommGroup α] (W t : α) (q : List α) : List α :=
  q.dropWhile (fun x => decide (W < t - x))

/-- The admission test of acquire (rate_limit.py lines 73-85): after
pruning, the loop appends t and returns either when the retained count
is below max_requests_per_time, or when the computed wait
time_window_seconds - (t - head) is not positive (the code then falls
through the inner if and breaks). -/
def slidingCanAdmit {α : Type} [LinearOrderedAddCommGroup α] (N : ℕ) (W t : α)
    (q : List α) : Bool :=
  let retained := slidingPrune W t q
  if retained.length < N then true
  else
    match retained with
    | [] => true
    | head :: _ => decide (W - (t - head) ≤ 0)

/-- Effect of a successful acquire on the deque at clock reading t:
prune the head, then append t (rate_limit.py lines 70-71 and 88). -/
def slidingStep {α : Type} [LinearOrderedAddCommGroup α] (W t : α) (q : List α) : List α :=
  slidingPrune W t q ++ [t]

/-- Given the current deque, checks that a sequence of admissions at the
given clock readings is possible: each step passes the admission test of
acquire and then transforms the deque by slidingStep.  Releases do not
touch the deque, so they do not appear. -/
def admitsFrom {α : Type} [LinearOrderedAddCommGroup α] (N : ℕ) (W : α) :
    List α → List α → Bool
  | _, [] => true
  | q, t :: ts => slidingCanAdmit N W t q && admitsFrom N W (slidingStep W t q) ts

/-- Variant of admitsFrom where every admission is granted by the size
test alone (the retained count is strictly below max_requests_per_time),
never through the zero-wait boundary branch. -/
def strictAdmitsFrom {α : Type} [LinearOrderedAddCommGroup α] (N : ℕ) (W : α) :
    List α → List α → Bool
  | _, [] => true
  | q, t :: ts =>
    decide ((slidingPrune W t q).length < N) && strictAdmitsFrom N W (slidingStep W t q) ts

/-- Boolean check that a list of clock readings is nondecreasing (the
wall clock read by successive acquire loop iterations). -/
def sortedLe {α : Type} [LinearOrder α] : List α → Bool
  | [] => true
  | [_] => true
  | a :: b :: l => decide (a ≤ b) && sortedLe (b :: l)

/-- A possible execution of the limiter starting from an empty deque: a
nondecreasing sequence of clock readings at which acquires are admitted,
each passing the acquire admission test. -/
def AdmissibleTrace {α : Type} [LinearOrderedAddCommGroup α] (N : ℕ) (W : α)
    (tr : List α) : Prop :=
  sortedLe tr = true ∧ admitsFrom N W [] tr = true

/-- Deque contents after a sequence of admissions from the empty deque. -/
def queueAfter {α : Type} [LinearOrderedAddCommGroup α] (W : α) (tr : List α) : List α :=
  tr.foldl (fun q t => slidingStep W t q) []

/-- Number of admissions falling in the half-open window of length W
ending at s + W. -/
def windowCount {α : Type} [LinearOrderedAddCommGroup α] (W s : α) (tr : List α) : ℕ :=
  (tr.filter (fun x => decide (s < x) && decide (x ≤ s + W))).length

/-- Number of admissions falling in the closed window of length W
starting at s. -/
def windowCountClosed {α : Type} [LinearOrderedAddCommGroup α] (W s : α) (tr : List α) : ℕ :=
  (tr.filter (fun x => decide (s ≤ x) && decide (x ≤ s + W))).length

/-! ### Data model (src/2/src/models.py) -/

/-- Per-author commit count (models.py lines 5-16).  Validation forbids
negative counts, so the count is a Nat. -/
structure RepositoryAuthorCommitsNum where
  author : String
  commits_num : ℕ
deriving DecidableEq

/-- Repository record (models.py lines 26-51).  Validation forbids
negative stars; language defaults are applied before construction in
this embedding. -/
structure Repository where
  name : String
  owner : String
  position : ℕ
  stars : ℕ
  watchers : ℕ
  forks : ℕ
  language : String
  authors_commits_num_today : List RepositoryAuthorCommitsNum
deriving DecidableEq

/-- Index of the last entry with the given author, mirroring the dict
comprehension of add_commits (models.py lines 77-79) in which a later
index overwrites an earlier one for the same author. -/
def lastIdxOf (a : String) : List RepositoryAuthorCommitsNum → Option ℕ
  | [] => none
  | x :: xs =>
    match lastIdxOf a xs with
    | some i => some (i + 1)
    | none => if x.author == a then some 0 else none

/-- In-place increment of the commit count of the entry at index i
(models.py line 83); out-of-range indices leave the list unchanged. -/
def bumpAt (l : List RepositoryAuthorCommitsNum) (i : ℕ) (n : ℕ) :
    List RepositoryAuthorCommitsNum :=
  match l[i]? with
  | some e => l.set i ⟨e.author, e.commits_num + n⟩
  | none => l

/-- Loop body of add_commits (models.py lines 80-85): an incoming
entry bumps the count at the last index its author had in the original
list (the dict is built once, before the loop), or is appended when the
author is new. -/
def addCommitsStep (cur st : List RepositoryAuthorCommitsNum)
    (c : RepositoryAuthorCommitsNum) : List RepositoryAuthorCommitsNum :=
  match lastIdxOf c.author cur with
  | some i => bumpAt st i c.commits_num
  | none => st ++ [c]

/-- Shallow embedding of Repository.add_commits (models.py lines 73-85)
on the commit list: an empty current list is replaced by the argument,
otherwise the incoming entries are folded into it. -/
def addCommits (cur commits : List RepositoryAuthorCommitsNum) :
    List RepositoryAuthorCommitsNum :=
  if cur.isEmpty then commits
  else commits.foldl (addCommitsStep cur) cur

/-- Repository.add_commits at the record level. -/
def Repository.add_commits (r : Repository) (commits : List RepositoryAuthorCommitsNum) :
    Repository :=
  { r with authors_commits_num_today := addCommits r.authors_commits_num_today commits }

/-- Total commits attributed to one author by a commit list. -/
def authorSum (l : List RepositoryAuthorCommitsNum) (a : String) : ℕ :=
  ((l.filter (fun x => x.author == a)).map (fun x => x.commits_num)).sum

/-! ### LRU + TTL cache (src/3/src/cache.py) -/

/-- The OrderedDict of InMemoryLRUAPICache as an association list kept
in recency order: head is least recently used, tail most recently
used.  Each entry carries its value and optional expiry instant. -/
structure InMemoryLRUAPICache (α : Type) where
  entries : List (String × α × Option ℤ)
  maxlen : ℕ
deriving DecidableEq

/-- Removal of a key from the ordered entry list (dict deletion, and
the reposition half of move_to_end). -/
def removeKey {α : Type} (k : String) (l : List (String × α × Option ℤ)) :
    List (String × α × Option ℤ) :=
  l.filter (fun e => !(e.1 == k))

/-- The freshness test of get (cache.py line 16): no expiry, or the
clock is still strictly before it. -/
def notExpired (now : ℤ) (expiry : Option ℤ) : Bool :=
  match expiry with
  | none => true
  | some t => decide (now < t)

/-- Shallow embedding of InMemoryLRUAPICache.get (cache.py lines
13-21) at clock reading now: a fresh hit moves the key to the
most-recently-used end and returns its value; an expired hit deletes
the entry and misses; an absent key misses. -/
def cacheGet {α : Type} (now : ℤ) (k : String) (c : InMemoryLRUAPICache α) :
    Option α × InMemoryLRUAPICache α :=
  match c.entries.find? (fun e => e.1 == k) with
  | none => (none, c)
  | some e =>
    if notExpired now e.2.2 then
      (some e.2.1, ⟨removeKey k c.entries ++ [(k, e.2.1, e.2.2)], c.maxlen⟩)
    else
      (none, ⟨removeKey k c.entries, c.maxlen⟩)

/-- Expiry computed by set (cache.py line 24): time.time() + ttl when
ttl is truthy, None otherwise — so a ttl of 0 (like None) yields no
expiry. -/
def cacheExpiry (now : ℤ) (ttl : Option ℤ) : Option ℤ :=
  match ttl with
  | none => none
  | some t => if t = 0 then none else some (now + t)

/-- Shallow embedding of InMemoryLRUAPICache.set (cache.py lines
23-28): store the entry, move it to the most-recently-used end, and if
the size now exceeds maxlen evict one item from the
least-recently-used end. -/
def cacheSet {α : Type} (now : ℤ) (k : String) (v : α) (ttl : Option ℤ)
    (c : InMemoryLRUAPICache α) : InMemoryLRUAPICache α :=
  let l := removeKey k c.entries ++ [(k, v, cacheExpiry now ttl)]
  if c.maxlen < l.length then ⟨l.drop 1, c.maxlen⟩ else ⟨l, c.maxlen⟩

/-! ### Paginated search fan-out (src/3/src/scraper.py) -/

/-- Clamp applied to limit by get_repositories and
_get_all_repositories (scraper.py line 412): limit = max 1 (min limit 100). -/
def clampLimit (limit : ℕ) : ℕ := max 1 (min limit 100)

/-- Clamp applied to qty (scraper.py line 413). -/
def clampQty (qty : ℕ) : ℕ := max 1 (min qty 1000)

/-- pages = ceil(qty / limit) of _get_all_repositories (scraper.py
line 416), as exact natural-number ceiling division. -/
def pagesFor (qty limit : ℕ) : ℕ := (qty + limit - 1) / limit

/-- per_page passed for the 0-based page index p (scraper.py line 419):
min limit (qty - p * limit). -/
def perPage (qty limit p : ℕ) : ℕ := min limit (qty - p * limit)

/-- The per-page sizes of all issued search requests, in page order. -/
def perPages (qty limit : ℕ) : List ℕ :=
  (List.range (pagesFor qty limit)).map (perPage qty limit)

/-- Positions assigned by _get_top_repositories (scraper.py line 294):
each repository of a page batch of n items receives its 0-based
enumeration index. -/
def topRepoPositions (pageLen : ℕ) : List ℕ := List.range pageLen

/-- The (page index, position) pairs of the concatenated result of
_get_all_repositories (scraper.py lines 417-435), given the number of
items each page batch actually returned. -/
def allRepoPagePositions (qty limit : ℕ) (pageLens : ℕ → ℕ) : List (ℕ × ℕ) :=
  (List.range (pagesFor qty limit)).flatMap
    (fun p => (topRepoPositions (pageLens p)).map (fun i => (p, i)))

/-! ### ClickHouse writer (src/3/src/db.py) -/

/-- Errors the writer can raise before any row reaches the database:
the Python AttributeError raised by touching the missing _client
attribute, and the RuntimeError raised by the client property for an
uninitialized client. -/
inductive DBError where
  | attributeError
  | notInitialized
deriving DecidableEq

/-- Shallow embedding of the ClickHouseRepository.client property
(db.py lines 46-52): fails with the writer's not-initialized error when
init() has not set the _client attribute. -/
def clientProperty (hasClient : Bool) : Except DBError Unit :=
  if hasClient then .ok () else .error .notInitialized

/-- The shared batching loop of the three save methods (db.py lines
54-141): rows accumulate into a batch, flushed by an insert whenever it
reaches batch_size and once more at the end if nonempty.  Every insert
evaluates self._client directly, which raises AttributeError when
init() has not run; the result lists the insert calls performed. -/
def saveRowsAux {ρ : Type} (hasClient : Bool) (batchSize : ℕ) :
    List ρ → List ρ → List (List ρ) → Except DBError (List (List ρ))
  | [], batch, done =>
    if batch.isEmpty then .ok done
    else if hasClient then .ok (done ++ [batch]) else .error .attributeError
  | r :: rest, batch, done =>
    let batch' := batch ++ [r]
    if batchSize ≤ batch'.length then
      if hasClient then saveRowsAux hasClient batchSize rest [] (done ++ [batch'])
      else .error .attributeError
    else saveRowsAux hasClient batchSize rest batch' done

/-- One save method: batch-insert the given rows. -/
def saveTable {ρ : Type} (hasClient : Bool) (batchSize : ℕ) (rows : List ρ) :
    Except DBError (List (List ρ)) :=
  saveRowsAux hasClient batchSize rows [] []

/-- Rows of save_repositories (db.py lines 54-90): one tuple per
repository, stamped with the run's update instant. -/
def repositoriesRows (updated : ℤ) (repos : List Repository) :
    List (String × String × ℕ × ℕ × ℕ × String × ℤ) :=
  repos.map (fun r => (r.name, r.owner, r.stars, r.watchers, r.forks, r.language, updated))

/-- Rows of save_commits (db.py lines 92-116): one tuple per
(repository, author) commit count. -/
def commitsRows (repos : List Repository) : List (String × String × ℕ) :=
  repos.flatMap
    (fun r => r.authors_commits_num_today.map (fun ac => (r.name, ac.author, ac.commits_num)))

/-- Rows of save_positions (db.py lines 118-141): one tuple per
repository. -/
def positionsRows (repos : List Repository) : List (String × ℕ × String) :=
  repos.map (fun r => (r.name, r.position, r.language))

/-- The error component of a save result (a gather slot holds either
None for success or the raised exception). -/
def exceptErr {ε σ : Type} : Except ε σ → Option ε
  | .error e => some e
  | .ok _ => none

/-- Shallow embedding of the post-gather loop of
save_repositories_commits_positions (db.py lines 154-157): walk the
gathered slots in task order; the first exception found is logged and
immediately re-raised, ending the loop.  Returns the logged exceptions
and the re-raised one. -/
def gatherLogRaise {ε : Type} : List (Option ε) → List ε × Option ε
  | [] => ([], none)
  | none :: rest => gatherLogRaise rest
  | some e :: _ => ([e], some e)

/-- First exception among the gathered slots, in task order. -/
def firstError {ε : Type} (results : List (Option ε)) : Option ε :=
  (results.filterMap id).head?

/-- The three gathered slots of save_repositories_commits_positions
(db.py lines 147-153), in task order: save_repositories, save_commits,
save_positions. -/
def saveAllResults (hasClient : Bool) (batchSize : ℕ) (updated : ℤ)
    (repos : List Repository) : List (Option DBError) :=
  [exceptErr (saveTable hasClient batchSize (repositoriesRows updated repos)),
   exceptErr (saveTable hasClient batchSize (commitsRows repos)),
   exceptErr (saveTable hasClient batchSize (positionsRows repos))]

/-! ### Concrete inputs used by witnesses and counterexamples -/

/-- Concrete cache key. -/
def keyW : String := "GET:search/repositories:p1"

/-- Another concrete cache key. -/
def keyW2 : String := "GET:repos/a/b/commits:p1"

/-- Concrete commit author. -/
def authorW : String := "alice"

/-- Concrete request url. -/
def urlW : String := "https://api.github.com/search/repositories"

/-- Concrete repository name. -/
def repoNameW : String := "linux"

/-- Concrete repository owner. -/
def ownerW : String := "torvalds"

/-- Concrete language. -/
def langW : String := "C"

/-- Concrete repository with one author commit entry. -/
def repoW : Repository :=
  ⟨repoNameW, ownerW, 0, 10, 5, 2, langW, [⟨authorW, 1⟩]⟩

/-- Concrete 403 rate-limited response: remaining header 0, reset epoch
present, JSON error body without a message field. -/
def respW : HttpResponse ℕ :=
  ⟨403, urlW, some zeroStr, some 1760227203, true, none, 0⟩

/-! ### Shared helper lemmas -/

/-- gatherLogRaise skips successful slots. -/
theorem gatherLogRaise_none {ε : Type} (rest : List (Option ε)) :
    gatherLogRaise (none :: rest) = gatherLogRaise rest := rfl

/-- The post-gather loop re-raises exactly the first exception and logs
exactly that one exception. -/
theorem gatherLogRaise_eq_firstError {ε : Type} (results : List (Option ε)) :
    (gatherLogRaise results).2 = firstError results ∧
      (gatherLogRaise results).1 = (firstError results).toList := by
  induction results with
  | nil => exact ⟨rfl, rfl⟩
  | cons o rest ih =>
    cases o with
    | none =>
      simpa [gatherLogRaise, firstError] using ih
    | some e =>
      simp [gatherLogRaise, firstError]

/-! ### Claim theorems -/

/-- Claim C1.  The retry handler for RateLimited errors is claimed to
give up only when reset_time − now exceeds wait_reset_sec_max and to
sleep max 0 (reset_time − now + 1) seconds otherwise.  The code
(scraper.py line 222) instead compares the absolute epoch reset_time
with wait_reset_sec_max, so with a real epoch (here 3 s in the future,
well under the 5 s ceiling, at now = 1760227200) a non-final attempt
gives up immediately with RetryFailed where the documented behaviour
sleeps 4 s and retries; the two agree on the final attempt. -/
theorem handleRateLimited_epoch_comparison_bug :
    handleRateLimited 0 3 (some 1760227203) 1760227200 5 = .raiseRetryFailed ∧
    handleRateLimitedSpec 0 3 (some 1760227203) 1760227200 5 = .sleepRetry 4 ∧
    ((1760227203 : ℤ) - 1760227200 ≤ 5) ∧
    handleRateLimited 2 3 (some 1760227203) 1760227200 5 = .raiseRetryFailed := by
  refine ⟨?_, ?_, by decide, ?_⟩ <;> decide

/-- Claim C8 counterexample.  With gathered slots holding a success and
then two exceptions, the loop of save_repositories_commits_positions
logs only the first exception (the log list is not the full list of
exceptions), then re-raises it; so the claim that every exception among
the three saves is logged is false. -/
theorem gatherLogRaise_not_log_all :
    (gatherLogRaise [none, some (1 : ℕ), some 2]).1 ≠ [1, 2] ∧
      (gatherLogRaise [none, some (1 : ℕ), some 2]).1 = [1] ∧
      (gatherLogRaise [none, some (1 : ℕ), some 2]).2 = some 1 := by
  refine ⟨by decide, by decide, by decide⟩

/-- Claim C8 (amended).  save_repositories_commits_positions awaits all
three saves (the gather collects a slot for each), then walks the slots
in task order: the first exception found is logged and re-raised;
exceptions after the first are neither logged nor raised.  Stated for
the aggregation loop over any gathered slot list, hence in particular
for the three slots of saveAllResults. -/
theorem gatherLogRaise_logs_and_raises_first {ε : Type} (results : List (Option ε)) :
    (gatherLogRaise results).2 = firstError results ∧
      (gatherLogRaise results).1 = (firstError results).toList :=
  gatherLogRaise_eq_firstError results

/-- Claim C9.  The claim says every save invoked before init() fails
with the writer's NotInitialized error and attempts no insert.  The
not-initialized guard exists (the client property, db.py lines 46-52,
modelled by clientProperty) but the save methods touch self._client
directly: on a nonempty input each fails with the Python AttributeError
instead, and on an empty input save_repositories (and save_positions)
performs no insert and succeeds silently, raising nothing at all. -/
theorem saves_bypass_notInitialized_guard :
    clientProperty false = .error .notInitialized ∧
    saveTable false 1000 (repositoriesRows 1760227200 [repoW]) = .error .attributeError ∧
    saveTable false 1000 (commitsRows [repoW]) = .error .attributeError ∧
    saveTable false 1000 (positionsRows [repoW]) = .error .attributeError ∧
    saveAllResults false 1000 1760227200 [repoW] =
      [some .attributeError, some .attributeError, some .attributeError] ∧
    saveTable false 1000 (repositoriesRows 1760227200 ([] : List Repository)) = .ok [] := by
  exact ⟨rfl, rfl, rfl, rfl, rfl, rfl⟩

/-- Claim C3.  For every response, validation maps the status to exactly
the tabled error kind: 400 BadRequest, 401 Unauthorized, 403 with
remaining header 0 RateLimited carrying the optional reset epoch, other
403 Forbidden, 404 NotFound, 409 Conflict, 422 Validation, 500-599
ServerError with the status, any other non-2xx Generic with the status;
and every 2xx returns the parsed JSON body. -/
theorem validateResponse_status_mapping {α : Type} (r : HttpResponse α) :
    (200 ≤ r.status ∧ r.status < 300 → validateResponse r = .ok r.bodyJson) ∧
    (r.status = 400 →
      validateResponse r = .error (.badRequest (errorMessage r.bodyOk r.bodyMessage) r.url)) ∧
    (r.status = 401 →
      validateResponse r = .error (.unauthorized (errorMessage r.bodyOk r.bodyMessage) r.url)) ∧
    (r.status = 403 → r.remainingHeader.getD oneStr = zeroStr →
      validateResponse r =
        .error (.rateLimited (errorMessage r.bodyOk r.bodyMessage) r.url r.resetHeader)) ∧
    (r.status = 403 → r.remainingHeader.getD oneStr ≠ zeroStr →
      validateResponse r = .error (.forbidden (errorMessage r.bodyOk r.bodyMessage) r.url)) ∧
    (r.status = 404 →
      validateResponse r = .error (.notFound (errorMessage r.bodyOk r.bodyMessage) r.url)) ∧
    (r.status = 409 →
      validateResponse r = .error (.conflict (errorMessage r.bodyOk r.bodyMessage) r.url)) ∧
    (r.status = 422 →
      validateResponse r = .error (.validation (errorMessage r.bodyOk r.bodyMessage) r.url)) ∧
    (500 ≤ r.status → r.status < 600 →
      validateResponse r =
        .error (.serverError r.status (errorMessage r.bodyOk r.bodyMessage) r.url)) ∧
    (¬(200 ≤ r.status ∧ r.status < 300) →
      r.status ≠ 400 → r.status ≠ 401 → r.status ≠ 403 → r.status ≠ 404 →
      r.status ≠ 409 → r.status ≠ 422 → ¬(500 ≤ r.status ∧ r.status < 600) →
      validateResponse r =
        .error (.generic r.status (errorMessage r.bodyOk r.bodyMessage) r.url)) := by
  refine ⟨?_, ?_, ?_, ?_, ?_, ?_, ?_, ?_, ?_, ?_⟩
  · intro h
    simp [validateResponse, h]
  · intro h
    simp [validateResponse, h]
  · intro h
    simp [validateResponse, h]
  · intro h hrem
    simp [validateResponse, h, hrem]
  · intro h hrem
    simp [validateResponse, h, hrem]
  · intro h
    simp [validateResponse, h]
  · intro h
    simp [validateResponse, h]
  · intro h
    simp [validateResponse, h]
  · intro h1 h2
    have hn : ¬(200 ≤ r.status ∧ r.status < 300) := by omega
    have h400 : r.status ≠ 400 := by omega
    have h401 : r.status ≠ 401 := by omega
    have h403 : r.status ≠ 403 := by omega
    have h404 : r.status ≠ 404 := by omega
    have h409 : r.status ≠ 409 := by omega
    have h422 : r.status ≠ 422 := by omega
    simp [validateResponse, hn, h400, h401, h403, h404, h409, h422, h1, h2]
  · intro hn h400 h401 h403 h404 h409 h422 h5xx
    simp [validateResponse, hn, h400, h401, h403, h404, h409, h422, h5xx]

/-- Claim C3 witness: the mapping theorem applied to the concrete 403
response respW (remaining header 0, reset epoch 1760227203, JSON body
without message field) yields RateLimited with that epoch and the
default message. -/
theorem validateResponse_status_mapping_witness :
    validateResponse respW = .error (.rateLimited unknownErrorMsg urlW (some 1760227203)) := by
  have h := (validateResponse_status_mapping respW).2.2.2.1 rfl rfl
  simpa [respW, errorMessage] using h

/-- One unfolding step of the retry loop on a failed non-final
attempt. -/
theorem serverErrorRetry_cons_none {α : Type} (i : ℕ) (x : Option α) (xs : List (Option α)) :
    serverErrorRetry i (none :: x :: xs) =
      ((serverErrorRetry (i + 1) (x :: xs)).1,
       (serverErrorRetry (i + 1) (x :: xs)).2.1 + 1,
       2 ^ i :: (serverErrorRetry (i + 1) (x :: xs)).2.2) := rfl

/-- Running the retry loop from attempt index i on m + 1 consecutive
server errors: the final attempt raises RetryFailed, after backoff
sleeps 2 ^ retry for each earlier attempt. -/
theorem serverErrorRetry_all_fail {α : Type} (m : ℕ) :
    ∀ i : ℕ, serverErrorRetry i (List.replicate (m + 1) (none : Option α)) =
      (.retryFailed, m + 1, (List.range m).map (fun r => 2 ^ (i + r))) := by
  induction m with
  | zero => intro i; rfl
  | succ m ih =>
    intro i
    have harith : (fun r => (2 : ℕ) ^ (i + 1 + r)) = fun r => 2 ^ (i + (r + 1)) := by
      funext r
      congr 1
      omega
    rw [List.replicate_succ, List.replicate_succ, serverErrorRetry_cons_none,
      ← List.replicate_succ, ih (i + 1), List.range_succ_eq_map]
    simp [Function.comp, harith]

/-- Running the retry loop from attempt index i on j server errors
followed by a success: the successful payload is returned on attempt
j + 1 after backoff sleeps for each failed attempt. -/
theorem serverErrorRetry_succeeds {α : Type} (j : ℕ) :
    ∀ (i : ℕ) (a : α) (rest : List (Option α)),
      serverErrorRetry i (List.replicate j none ++ some a :: rest) =
        (.success a, j + 1, (List.range j).map (fun r => 2 ^ (i + r))) := by
  induction j with
  | zero => intro i a rest; rfl
  | succ j ih =>
    intro i a rest
    have harith : (fun r => (2 : ℕ) ^ (i + 1 + r)) = fun r => 2 ^ (i + (r + 1)) := by
      funext r
      congr 1
      omega
    obtain ⟨y, ys, hys⟩ :
        ∃ y ys, List.replicate j (none : Option α) ++ some a :: rest = y :: ys := by
      cases j with
      | zero => exact ⟨some a, rest, rfl⟩
      | succ j => exact ⟨none, _, by rw [List.replicate_succ, List.cons_append]⟩
    rw [List.replicate_succ, List.cons_append, hys, serverErrorRetry_cons_none, ← hys,
      ih (i + 1) a rest, List.range_succ_eq_map]
    simp [Function.comp, harith]

/-- Claim C4.  When every attempt fails with a 5xx ServerError the
retry loop makes exactly max_retries attempts, sleeping 2 ^ retry
seconds after each non-final attempt, and raises RetryFailed on the
final one; when attempt k succeeds after k - 1 server errors the parsed
payload of that attempt is returned; in particular 500, 500, 200 with
max_retries 3 sleeps 1 s then 2 s and returns the payload. -/
theorem serverErrorRetry_policy {α : Type} :
    (∀ m : ℕ, 1 ≤ m →
      serverErrorRetry 0 (List.replicate m (none : Option α)) =
        (.retryFailed, m, (List.range (m - 1)).map (fun r => 2 ^ r))) ∧
    (∀ (j : ℕ) (a : α) (rest : List (Option α)),
      serverErrorRetry 0 (List.replicate j none ++ some a :: rest) =
        (.success a, j + 1, (List.range j).map (fun r => 2 ^ r))) ∧
    (∀ a : α, serverErrorRetry 0 [none, none, some a] = (.success a, 3, [1, 2])) := by
  have hz : (fun r => (2 : ℕ) ^ (0 + r)) = fun r => 2 ^ r := by
    funext r
    rw [Nat.zero_add]
  refine ⟨?_, ?_, ?_⟩
  · intro m hm
    cases m with
    | zero => omega
    | succ m => simpa [hz] using serverErrorRetry_all_fail m 0
  · intro j a rest
    simpa [hz] using serverErrorRetry_succeeds j 0 a rest
  · intro a
    have h := serverErrorRetry_succeeds 2 0 a []
    simpa [hz, List.range_succ] using h

/-- Claim C4 witness: three straight server errors with max_retries 3
raise RetryFailed after three attempts and sleeps of 1 s and 2 s. -/
theorem serverErrorRetry_policy_witness :
    1 ≤ 3 ∧
      serverErrorRetry 0 (List.replicate 3 (none : Option ℕ)) = (.retryFailed, 3, [1, 2]) := by
  refine ⟨by norm_num, ?_⟩
  have h := (@serverErrorRetry_policy ℕ).1 3 (by norm_num)
  simpa [List.range_succ] using h

/-- authorSum over a cons. -/
theorem authorSum_cons (x : RepositoryAuthorCommitsNum) (l : List RepositoryAuthorCommitsNum)
    (a : String) :
    authorSum (x :: l) a = (if x.author == a then x.commits_num else 0) + authorSum l a := by
  cases hx : x.author == a with
  | false => simp [authorSum, List.filter_cons, hx]
  | true => simp [authorSum, List.filter_cons, hx]

/-- authorSum over an append. -/
theorem authorSum_append (l1 l2 : List RepositoryAuthorCommitsNum) (a : String) :
    authorSum (l1 ++ l2) a = authorSum l1 a + authorSum l2 a := by
  simp [authorSum, List.filter_append]

/-- lastIdxOf points at an in-range entry with the looked-up author. -/
theorem lastIdxOf_spec (a : String) (l : List RepositoryAuthorCommitsNum) :
    ∀ i, lastIdxOf a l = some i → ∃ e, l[i]? = some e ∧ e.author = a := by
  induction l with
  | nil => intro i h; simp [lastIdxOf] at h
  | cons x xs ih =>
    intro i h
    rw [lastIdxOf] at h
    cases hrec : lastIdxOf a xs with
    | some j =>
      rw [hrec] at h
      obtain rfl : j + 1 = i := by simpa using h
      obtain ⟨e, he, hea⟩ := ih j hrec
      exact ⟨e, by simpa using he, hea⟩
    | none =>
      rw [hrec] at h
      cases hxa : x.author == a with
      | true =>
        rw [hxa] at h
        obtain rfl : (0 : ℕ) = i := by simpa using h
        exact ⟨x, by simp, by simpa using hxa⟩
      | false => rw [hxa] at h; simp at h

/-- Setting the entry at a valid index to the same author with a bumped
count adds the bump to that author's sum. -/
theorem authorSum_set (st : List RepositoryAuthorCommitsNum) :
    ∀ (i : ℕ) (e : RepositoryAuthorCommitsNum) (n : ℕ) (a : String),
      st[i]? = some e →
      authorSum (st.set i ⟨e.author, e.commits_num + n⟩) a
        = authorSum st a + (if e.author == a then n else 0) := by
  induction st with
  | nil => intro i e n a h; simp at h
  | cons x xs ih =>
    intro i e n a h
    cases i with
    | zero =>
      obtain rfl : x = e := by simpa using h
      rw [List.set_cons_zero, authorSum_cons, authorSum_cons]
      cases hxa : x.author == a with
      | false => simp [hxa]
      | true => simp [hxa]; omega
    | succ i =>
      have h2 : xs[i]? = some e := by simpa using h
      rw [List.set_cons_succ, authorSum_cons, authorSum_cons, ih i e n a h2]
      omega

/-- bumpAt at a valid index adds the bump to the entry author's sum. -/
theorem authorSum_bumpAt (st : List RepositoryAuthorCommitsNum) (i n : ℕ)
    (e : RepositoryAuthorCommitsNum) (a : String) (h : st[i]? = some e) :
    authorSum (bumpAt st i n) a = authorSum st a + (if e.author == a then n else 0) := by
  rw [bumpAt, h]
  exact authorSum_set st i e n a h

/-- One addCommitsStep adds the incoming entry's count to its author's
sum, provided the state keeps the original list's authors at the
original indices. -/
theorem addCommitsStep_sum (cur st : List RepositoryAuthorCommitsNum)
    (c : RepositoryAuthorCommitsNum) (a : String)
    (hagree : ∀ (j : ℕ) (e : RepositoryAuthorCommitsNum),
      cur[j]? = some e → ∃ m : ℕ, st[j]? = some ⟨e.author, m⟩) :
    authorSum (addCommitsStep cur st c) a
      = authorSum st a + (if c.author == a then c.commits_num else 0) := by
  cases hidx : lastIdxOf c.author cur with
  | none =>
    simp only [addCommitsStep, hidx]
    rw [authorSum_append, authorSum_cons]
    simp [authorSum]
  | some i =>
    obtain ⟨ec, hc, hca⟩ := lastIdxOf_spec c.author cur i hidx
    obtain ⟨m, hm⟩ := hagree i ec hc
    have hbump : bumpAt st i c.commits_num
        = st.set i ⟨ec.author, m + c.commits_num⟩ := by
      rw [bumpAt, hm]
    simp only [addCommitsStep, hidx, hbump]
    have := authorSum_set st i ⟨ec.author, m⟩ c.commits_num a hm
    simpa [hca] using this

/-- One addCommitsStep keeps the original list's authors at the
original indices. -/
theorem addCommitsStep_agree (cur st : List RepositoryAuthorCommitsNum)
    (c : RepositoryAuthorCommitsNum)
    (hagree : ∀ (j : ℕ) (e : RepositoryAuthorCommitsNum),
      cur[j]? = some e → ∃ m : ℕ, st[j]? = some ⟨e.author, m⟩) :
    ∀ (j : ℕ) (e : RepositoryAuthorCommitsNum),
      cur[j]? = some e → ∃ m : ℕ, (addCommitsStep cur st c)[j]? = some ⟨e.author, m⟩ := by
  cases hidx : lastIdxOf c.author cur with
  | none =>
    intro j e hj
    obtain ⟨m, hm⟩ := hagree j e hj
    have hlt : j < st.length := (List.getElem?_eq_some.mp hm).1
    refine ⟨m, ?_⟩
    simp only [addCommitsStep, hidx]
    rw [List.getElem?_append, if_pos hlt]
    exact hm
  | some i =>
    obtain ⟨ec, hc, hca⟩ := lastIdxOf_spec c.author cur i hidx
    obtain ⟨m, hm⟩ := hagree i ec hc
    have hbump : bumpAt st i c.commits_num
        = st.set i ⟨ec.author, m + c.commits_num⟩ := by
      rw [bumpAt, hm]
    intro j e hj
    simp only [addCommitsStep, hidx, hbump]
    by_cases hji : j = i
    · subst hji
      obtain rfl : e = ec := by rw [hj] at hc; simpa using hc
      have hlt : j < st.length := (List.getElem?_eq_some.mp hm).1
      exact ⟨m + c.commits_num, List.getElem?_set_self hlt⟩
    · obtain ⟨m2, hm2⟩ := hagree j e hj
      exact ⟨m2, by rw [List.getElem?_set_ne (fun hh => hji hh.symm)]; exact hm2⟩

/-- Folding addCommitsStep over a commit list adds the per-author sums
of that list. -/
theorem addCommits_foldl_sum (cur : List RepositoryAuthorCommitsNum) :
    ∀ (commits st : List RepositoryAuthorCommitsNum),
      (∀ (j : ℕ) (e : RepositoryAuthorCommitsNum),
        cur[j]? = some e → ∃ m : ℕ, st[j]? = some ⟨e.author, m⟩) →
      ∀ a, authorSum (commits.foldl (addCommitsStep cur) st) a
          = authorSum st a + authorSum commits a := by
  intro commits
  induction commits with
  | nil => intro st _ a; simp [authorSum]
  | cons c cs ih =>
    intro st hagree a
    have hrec := ih (addCommitsStep cur st c) (addCommitsStep_agree cur st c hagree) a
    rw [List.foldl_cons, hrec, addCommitsStep_sum cur st c a hagree, authorSum_cons]
    omega

/-- add_commits with an empty incoming list leaves the commit list
unchanged. -/
theorem addCommits_empty_arg (cur : List RepositoryAuthorCommitsNum) :
    addCommits cur [] = cur := by
  rw [addCommits]
  cases cur with
  | nil => rfl
  | cons x xs => rfl

/-- addCommits adds per-author sums. -/
theorem addCommits_sum (cur commits : List RepositoryAuthorCommitsNum) (a : String) :
    authorSum (addCommits cur commits) a = authorSum cur a + authorSum commits a := by
  rw [addCommits]
  cases cur with
  | nil => simp [authorSum]
  | cons x xs =>
    have hagree : ∀ (j : ℕ) (e : RepositoryAuthorCommitsNum),
        (x :: xs)[j]? = some e → ∃ m : ℕ, (x :: xs)[j]? = some ⟨e.author, m⟩ :=
      fun j e hj => ⟨e.commits_num, hj⟩
    simpa using addCommits_foldl_sum (x :: xs) commits (x :: xs) hagree a

/-- Claim C5.  Repository.add_commits merges per-author commit counts:
an empty incoming list is a no-op; feeding a list into an empty commit
list yields exactly that list; the per-author sum of the merged list is
the sum of the two inputs' per-author sums, hence feeding the same list
twice from empty doubles every author's count, and the resulting
author-to-count mapping is independent of how a commit collection is
split and ordered across calls. -/
theorem add_commits_author_sums :
    (∀ r : Repository, r.add_commits [] = r) ∧
    (∀ commits, addCommits [] commits = commits) ∧
    (∀ cur commits a, authorSum (addCommits cur commits) a
        = authorSum cur a + authorSum commits a) ∧
    (∀ commits a, authorSum (addCommits (addCommits [] commits) commits) a
        = 2 * authorSum commits a) ∧
    (∀ cur cs1 cs2 a, authorSum (addCommits (addCommits cur cs1) cs2) a
        = authorSum (addCommits (addCommits cur cs2) cs1) a) ∧
    (∀ cur cs1 cs2 a, authorSum (addCommits cur (cs1 ++ cs2)) a
        = authorSum (addCommits (addCommits cur cs1) cs2) a) := by
  refine ⟨?_, ?_, addCommits_sum, ?_, ?_, ?_⟩
  · intro r
    cases r
    simp [Repository.add_commits, addCommits_empty_arg]
  · intro commits
    rw [addCommits]
    rfl
  · intro commits a
    rw [addCommits_sum]
    have h0 : addCommits [] commits = commits := by rw [addCommits]; rfl
    rw [h0]
    omega
  · intro cur cs1 cs2 a
    rw [addCommits_sum, addCommits_sum, addCommits_sum, addCommits_sum]
    omega
  · intro cur cs1 cs2 a
    rw [addCommits_sum, addCommits_sum, addCommits_sum, authorSum_append]
    omega

/-- Entries surviving removeKey do not match the removed key. -/
theorem removeKey_kfree {α : Type} (k : String) (l : List (String × α × Option ℤ)) :
    ∀ x ∈ removeKey k l, (x.1 == k) = false := by
  intro x hx
  have := List.of_mem_filter hx
  simpa using this

/-- Finding a key in a list whose prefix is free of it lands on the
appended entry. -/
theorem find?_kfree_append {α : Type} (k : String) (pre : List (String × α × Option ℤ))
    (hpre : ∀ x ∈ pre, (x.1 == k) = false) (e : String × α × Option ℤ)
    (he : (e.1 == k) = true) :
    (pre ++ [e]).find? (fun x => x.1 == k) = some e := by
  induction pre with
  | nil => simp [List.find?_cons, he]
  | cons y ys ih =>
    have hy : (y.1 == k) = false := hpre y (by simp)
    rw [List.cons_append, List.find?_cons, hy]
    exact ih (fun x hx => hpre x (by simp [hx]))

/-- Shape of the entry list after set: a key-free prefix followed by
the fresh entry at the most-recently-used end (needs capacity at least
one so the fresh entry itself is not evicted). -/
theorem cacheSet_shape {α : Type} (now : ℤ) (k : String) (v : α) (ttl : Option ℤ)
    (c : InMemoryLRUAPICache α) (h : 1 ≤ c.maxlen) :
    ∃ pre, (cacheSet now k v ttl c).entries = pre ++ [(k, v, cacheExpiry now ttl)] ∧
      (∀ x ∈ pre, (x.1 == k) = false) ∧ (cacheSet now k v ttl c).maxlen = c.maxlen := by
  rw [cacheSet]
  by_cases hlen :
      c.maxlen < (removeKey k c.entries ++ [(k, v, cacheExpiry now ttl)]).length
  · rw [if_pos hlen]
    cases hrk : removeKey k c.entries with
    | nil =>
      rw [hrk] at hlen
      simp at hlen
      omega
    | cons y ys =>
      refine ⟨ys, ?_, ?_, rfl⟩
      · simp
      · intro x hx
        exact removeKey_kfree k c.entries x (by rw [hrk]; exact List.mem_cons_of_mem y hx)
  · rw [if_neg hlen]
    exact ⟨removeKey k c.entries, rfl, removeKey_kfree k c.entries, rfl⟩

/-- A get right after a set finds the fresh entry; it hits while the
entry is fresh and misses (deleting the entry) once it is expired. -/
theorem cacheGet_after_set {α : Type} (tGet now : ℤ) (k : String) (v : α) (ttl : Option ℤ)
    (c : InMemoryLRUAPICache α) (h : 1 ≤ c.maxlen) :
    (notExpired tGet (cacheExpiry now ttl) = true →
      (cacheGet tGet k (cacheSet now k v ttl c)).1 = some v) ∧
    (notExpired tGet (cacheExpiry now ttl) = false →
      (cacheGet tGet k (cacheSet now k v ttl c)).1 = none ∧
      (cacheGet tGet k (cacheSet now k v ttl c)).2.entries
        = removeKey k ((cacheSet now k v ttl c).entries)) := by
  obtain ⟨pre, hent, hfree, _⟩ := cacheSet_shape now k v ttl c h
  have hfind : (cacheSet now k v ttl c).entries.find? (fun x => x.1 == k)
      = some (k, v, cacheExpiry now ttl) := by
    rw [hent]
    exact find?_kfree_append k pre hfree _ (by simp)
  constructor
  · intro hfresh
    simp only [cacheGet, hfind]
    simp [hfresh]
  · intro hstale
    simp only [cacheGet, hfind]
    simp [hstale]

/-- A fresh hit promotes the key to the most-recently-used end and
returns the stored value. -/
theorem cacheGet_hit_promotes {α : Type} (now : ℤ) (k : String)
    (c : InMemoryLRUAPICache α) (e : String × α × Option ℤ)
    (hfind : c.entries.find? (fun x => x.1 == k) = some e)
    (hfresh : notExpired now e.2.2 = true) :
    (cacheGet now k c).1 = some e.2.1 ∧
      (cacheGet now k c).2.entries.getLast? = some (k, e.2.1, e.2.2) := by
  simp only [cacheGet, hfind, hfresh]
  exact ⟨rfl, List.getLast?_concat _⟩

/-- A set never grows the cache beyond maxlen. -/
theorem cacheSet_length_le {α : Type} (now : ℤ) (k : String) (v : α) (ttl : Option ℤ)
    (c : InMemoryLRUAPICache α) (h : c.entries.length ≤ c.maxlen) :
    (cacheSet now k v ttl c).entries.length ≤ c.maxlen := by
  rw [cacheSet]
  have hrk : (removeKey k c.entries).length ≤ c.entries.length :=
    List.length_filter_le _ _
  by_cases hlen :
      c.maxlen < (removeKey k c.entries ++ [(k, v, cacheExpiry now ttl)]).length
  · rw [if_pos hlen]
    simp only [List.length_drop, List.length_append]
    simp at hlen ⊢
    omega
  · rw [if_neg hlen]
    simp at hlen
    simpa using hlen

/-- Setting a fresh key into a full cache evicts exactly the entry at
the least-recently-used end. -/
theorem cacheSet_evicts_lru {α : Type} (now : ℤ) (k : String) (v : α) (ttl : Option ℤ)
    (c : InMemoryLRUAPICache α) (h1 : 1 ≤ c.maxlen)
    (hfull : c.entries.length = c.maxlen)
    (habsent : c.entries.find? (fun x => x.1 == k) = none) :
    (cacheSet now k v ttl c).entries
      = c.entries.drop 1 ++ [(k, v, cacheExpiry now ttl)] := by
  have hrk : removeKey k c.entries = c.entries := by
    rw [removeKey, List.filter_eq_self]
    intro x hx
    have := List.find?_eq_none.mp habsent x hx
    simpa using this
  rw [cacheSet, hrk]
  have hlen : c.maxlen < (c.entries ++ [(k, v, cacheExpiry now ttl)]).length := by
    simp [hfull]
  rw [if_pos hlen, List.drop_append_of_le_length (by omega)]

/-- Claim C6.  For the in-memory LRU+TTL cache: a get within ttl
seconds of a set of that key returns the stored value; once ttl seconds
have elapsed the get misses and removes the expired entry; a fresh hit
promotes the key to the most-recently-used end; and sets keep the size
within maxlen, a set of a fresh key into a full cache evicting exactly
the least-recently-used entry (the head). -/
theorem cache_lru_ttl_contract {α : Type} :
    (∀ (c : InMemoryLRUAPICache α) (k : String) (v : α) (now tGet ttl : ℤ),
      1 ≤ c.maxlen → 0 < ttl → tGet < now + ttl →
      (cacheGet tGet k (cacheSet now k v (some ttl) c)).1 = some v) ∧
    (∀ (c : InMemoryLRUAPICache α) (k : String) (v : α) (now tGet ttl : ℤ),
      1 ≤ c.maxlen → 0 < ttl → now + ttl ≤ tGet →
      (cacheGet tGet k (cacheSet now k v (some ttl) c)).1 = none ∧
      (cacheGet tGet k (cacheSet now k v (some ttl) c)).2.entries
        = removeKey k ((cacheSet now k v (some ttl) c).entries)) ∧
    (∀ (c : InMemoryLRUAPICache α) (k : String) (e : String × α × Option ℤ) (now : ℤ),
      c.entries.find? (fun x => x.1 == k) = some e → notExpired now e.2.2 = true →
      (cacheGet now k c).1 = some e.2.1 ∧
      (cacheGet now k c).2.entries.getLast? = some (k, e.2.1, e.2.2)) ∧
    (∀ (c : InMemoryLRUAPICache α) (k : String) (v : α) (now ttl : ℤ),
      c.entries.length ≤ c.maxlen →
      (cacheSet now k v (some ttl) c).entries.length ≤ c.maxlen) ∧
    (∀ (c : InMemoryLRUAPICache α) (k : String) (v : α) (now ttl : ℤ),
      1 ≤ c.maxlen → c.entries.length = c.maxlen →
      c.entries.find? (fun x => x.1 == k) = none →
      (cacheSet now k v (some ttl) c).entries
        = c.entries.drop 1 ++ [(k, v, cacheExpiry now (some ttl))]) := by
  refine ⟨?_, ?_, ?_, ?_, ?_⟩
  · intro c k v now tGet ttl hm httl hlt
    have hfresh : notExpired tGet (cacheExpiry now (some ttl)) = true := by
      rw [cacheExpiry, if_neg (by omega : ¬ ttl = 0)]
      simpa [notExpired] using hlt
    exact (cacheGet_after_set tGet now k v (some ttl) c hm).1 hfresh
  · intro c k v now tGet ttl hm httl hle
    have hstale : notExpired tGet (cacheExpiry now (some ttl)) = false := by
      rw [cacheExpiry, if_neg (by omega : ¬ ttl = 0)]
      simpa [notExpired] using hle
    exact (cacheGet_after_set tGet now k v (some ttl) c hm).2 hstale
  · intro c k e now hfind hfresh
    exact cacheGet_hit_promotes now k c e hfind hfresh
  · intro c k v now ttl hlen
    exact cacheSet_length_le now k v (some ttl) c hlen
  · intro c k v now ttl h1 hfull habsent
    exact cacheSet_evicts_lru now k v (some ttl) c h1 hfull habsent

/-- Claim C6 witness: the contract applied to a concrete cache of
capacity 2 holding one other key; set with ttl 10 at time 0, hit at
time 5, miss at time 10, and eviction of the head on overflow. -/
theorem cache_lru_ttl_contract_witness :
    (cacheGet 5 keyW (cacheSet 0 keyW (7 : ℕ) (some 10) ⟨[(keyW2, 5, none)], 2⟩)).1
        = some 7 ∧
      (cacheGet 10 keyW (cacheSet 0 keyW (7 : ℕ) (some 10) ⟨[(keyW2, 5, none)], 2⟩)).1
        = none ∧
      (cacheSet 0 keyW (7 : ℕ) (some 10)
          ⟨[(keyW2, 5, none), (keyW2 ++ keyW2, 6, none)], 2⟩).entries
        = [(keyW2 ++ keyW2, 6, none), (keyW, 7, some 10)] := by
  refine ⟨?_, ?_, ?_⟩
  · exact (@cache_lru_ttl_contract ℕ).1 ⟨[(keyW2, 5, none)], 2⟩ keyW 7 0 5 10
      (by decide) (by decide) (by decide)
  · exact ((@cache_lru_ttl_contract ℕ).2.1 ⟨[(keyW2, 5, none)], 2⟩ keyW 7 0 10 10
      (by decide) (by decide) (by decide)).1
  · have h := (@cache_lru_ttl_contract ℕ).2.2.2.2
      ⟨[(keyW2, 5, none), (keyW2 ++ keyW2, 6, none)], 2⟩ keyW 7 0 10
      (by decide) (by decide) (by decide)
    simpa using h

/-- Claim C10.  A set with ttl 0 stores an entry with no expiry (Python
truthiness treats 0 like None), so a get of that key at any later time
still returns the value rather than treating the entry as immediately
expired; shown right after the set, where only capacity pressure from
the set itself could evict the key (excluded by maxlen at least 1). -/
theorem cacheSet_ttl_zero_never_expires {α : Type} :
    (∀ now : ℤ, cacheExpiry now (some 0) = none) ∧
    (∀ (c : InMemoryLRUAPICache α) (k : String) (v : α) (now tGet : ℤ),
      1 ≤ c.maxlen →
      (cacheGet tGet k (cacheSet now k v (some 0) c)).1 = some v) := by
  refine ⟨fun now => rfl, ?_⟩
  intro c k v now tGet hm
  exact (cacheGet_after_set tGet now k v (some 0) c hm).1 rfl

/-- Claim C10 witness: ttl 0 entry set at epoch 0 still hits one
billion seconds later. -/
theorem cacheSet_ttl_zero_never_expires_witness :
    (cacheGet 1000000000 keyW (cacheSet 0 keyW (7 : ℕ) (some 0) ⟨[], 2⟩)).1 = some 7 :=
  (@cacheSet_ttl_zero_never_expires ℕ).2 ⟨[], 2⟩ keyW 7 0 1000000000 (by decide)

/-- The per-page sizes of the issued search pages add up to exactly
qty. -/
theorem perPages_sum : ∀ qty limit : ℕ, 1 ≤ limit → 1 ≤ qty →
    (perPages qty limit).sum = qty := by
  intro qty
  induction qty using Nat.strong_induction_on with
  | _ qty ih =>
    intro limit hl hq
    by_cases hle : qty ≤ limit
    · have hp : pagesFor qty limit = 1 := by
        rw [pagesFor]
        exact Nat.div_eq_of_lt_le (by omega) (by omega)
      rw [perPages, hp]
      have h1 : List.range 1 = [0] := rfl
      rw [h1]
      simp only [List.map_cons, List.map_nil, List.sum_cons, List.sum_nil]
      rw [perPage]
      omega
    · push_neg at hle
      have hrec := ih (qty - limit) (by omega) limit hl (by omega)
      have hp : pagesFor qty limit = pagesFor (qty - limit) limit + 1 := by
        rw [pagesFor, pagesFor]
        have heq : qty + limit - 1 = ((qty - limit) + limit - 1) + limit := by omega
        rw [heq, Nat.add_div_right _ (by omega : 0 < limit)]
      have hshift : (perPage qty limit ∘ Nat.succ) = perPage (qty - limit) limit := by
        funext p
        show perPage qty limit (p + 1) = perPage (qty - limit) limit p
        rw [perPage, perPage, Nat.succ_mul]
        congr 1
        have hx : ∀ x : ℕ, qty - (x + limit) = qty - limit - x := by
          intro x
          omega
        exact hx (p * limit)
      have h0 : perPage qty limit 0 = limit := by
        rw [perPage]
        omega
      rw [perPages, hp, List.range_succ_eq_map, List.map_cons, List.map_map, hshift,
        List.sum_cons, h0]
      rw [perPages] at hrec
      omega

/-- A page index below the page count leaves at least one repository
for its page; the per-page size is then between 1 and limit, so the
re-clamp inside the page fetch is the identity. -/
theorem perPage_bounds (qty limit p : ℕ) (hl : 1 ≤ limit) (hq : 1 ≤ qty)
    (hp : p < pagesFor qty limit) : 1 ≤ perPage qty limit p ∧ perPage qty limit p ≤ limit := by
  have hsplit : qty + limit - 1 = (qty - 1) + limit := by omega
  have hpages : pagesFor qty limit = (qty - 1) / limit + 1 := by
    rw [pagesFor, hsplit, Nat.add_div_right _ (by omega : 0 < limit)]
  rw [hpages] at hp
  have hle : p ≤ (qty - 1) / limit := by omega
  have hmul : p * limit ≤ qty - 1 := (Nat.le_div_iff_mul_le (by omega)).mp hle
  constructor
  · rw [perPage]
    have hx : ∀ x : ℕ, x ≤ qty - 1 → 1 ≤ min limit (qty - x) := by
      intro x hxx
      omega
    exact hx (p * limit) hmul
  · exact Nat.min_le_left _ _

/-- Length of the concatenated fan-out result: the sum of the page
batch lengths. -/
theorem allRepoPagePositions_length (qty limit : ℕ) (lens : ℕ → ℕ) :
    (allRepoPagePositions qty limit lens).length
      = ((List.range (pagesFor qty limit)).map lens).sum := by
  rw [allRepoPagePositions, List.length_flatMap]
  congr 1
  refine List.map_congr_left ?_
  intro p _
  simp [topRepoPositions]

/-- Claim C7.  get_repositories issues pages = ceil(qty / limit)
search requests, page p carrying per_page = min limit (qty − p·limit)
(for qty 250, limit 100: three pages of 100, 100, 50; the per-page
sizes always sum to qty and the fetch's internal re-clamp of per_page
is the identity); each repository's position is its 0-based index
within its own page batch, so when every page returns at most its
per_page items the concatenated result has length at most qty, and
every position lies below its page's batch length. -/
theorem get_repositories_pagination :
    (pagesFor 250 100 = 3 ∧ perPages 250 100 = [100, 100, 50]) ∧
    (∀ qty limit : ℕ, 1 ≤ limit → 1 ≤ qty → (perPages qty limit).sum = qty) ∧
    (∀ qty limit p : ℕ, 1 ≤ limit → limit ≤ 100 → 1 ≤ qty → p < pagesFor qty limit →
      clampLimit (perPage qty limit p) = perPage qty limit p) ∧
    (∀ (qty limit : ℕ) (lens : ℕ → ℕ), 1 ≤ limit → 1 ≤ qty →
      (∀ p, p < pagesFor qty limit → lens p ≤ perPage qty limit p) →
      (allRepoPagePositions qty limit lens).length ≤ qty) ∧
    (∀ (qty limit : ℕ) (lens : ℕ → ℕ) (pr : ℕ × ℕ),
      pr ∈ allRepoPagePositions qty limit lens → pr.2 < lens pr.1) := by
  refine ⟨⟨by decide, by decide⟩, perPages_sum, ?_, ?_, ?_⟩
  · intro qty limit p hl hl100 hq hp
    obtain ⟨h1, h2⟩ := perPage_bounds qty limit p hl hq hp
    rw [clampLimit]
    omega
  · intro qty limit lens hl hq hlens
    rw [allRepoPagePositions_length]
    have hle : ((List.range (pagesFor qty limit)).map lens).sum
        ≤ ((List.range (pagesFor qty limit)).map (perPage qty limit)).sum := by
      refine List.sum_le_sum ?_
      intro p hp
      exact hlens p (List.mem_range.mp hp)
    calc ((List.range (pagesFor qty limit)).map lens).sum
        ≤ ((List.range (pagesFor qty limit)).map (perPage qty limit)).sum := hle
      _ = qty := perPages_sum qty limit hl hq
  · intro qty limit lens pr hpr
    rw [allRepoPagePositions, List.mem_flatMap] at hpr
    obtain ⟨p, _, hin⟩ := hpr
    rw [topRepoPositions, List.mem_map] at hin
    obtain ⟨i, hi, rfl⟩ := hin
    exact List.mem_range.mp hi

/-- Claim C7 witness: at qty 250, limit 100, with every page returning
exactly its per_page items, the per-page sizes sum to 250, the
re-clamp on page 2's per_page 50 is the identity, and the concatenated
result has at most 250 items. -/
theorem get_repositories_pagination_witness :
    (perPages 250 100).sum = 250 ∧
      clampLimit (perPage 250 100 2) = perPage 250 100 2 ∧
      (allRepoPagePositions 250 100 (perPage 250 100)).length ≤ 250 := by
  refine ⟨?_, ?_, ?_⟩
  · exact get_repositories_pagination.2.1 250 100 (by decide) (by decide)
  · exact get_repositories_pagination.2.2.1 250 100 2 (by decide) (by decide) (by decide)
      (by decide)
  · exact get_repositories_pagination.2.2.2.1 250 100 (perPage 250 100) (by decide)
      (by decide) (fun p _ => le_refl _)

/-- A nondecreasing list stays nondecreasing after dropping its head. -/
theorem sortedLe_cons_of {α : Type} [LinearOrder α] (a : α) (l : List α)
    (h : sortedLe (a :: l) = true) : sortedLe l = true := by
  cases l with
  | nil => rfl
  | cons b l2 =>
    rw [sortedLe] at h
    exact (Bool.and_eq_true_iff.mp h).2

/-- A prefix of a nondecreasing list is nondecreasing. -/
theorem sortedLe_append_left {α : Type} [LinearOrder α] :
    ∀ l r : List α, sortedLe (l ++ r) = true → sortedLe l = true := by
  intro l
  induction l with
  | nil => intro r _; rfl
  | cons a l ih =>
    intro r h
    rw [List.cons_append] at h
    cases l with
    | nil => rfl
    | cons b l2 =>
      rw [List.cons_append, sortedLe] at h
      obtain ⟨h1, h2⟩ := Bool.and_eq_true_iff.mp h
      rw [sortedLe, Bool.and_eq_true]
      exact ⟨h1, ih r h2⟩

/-- In a nondecreasing list, everything before an element is at most
that element. -/
theorem sortedLe_le_of_append {α : Type} [LinearOrder α] :
    ∀ (l : List α) (u : α) (r : List α),
      sortedLe (l ++ u :: r) = true → ∀ x ∈ l, x ≤ u := by
  intro l
  induction l with
  | nil => intro u r _ x hx; simp at hx
  | cons a l ih =>
    intro u r h x hx
    rw [List.cons_append] at h
    have h2 : sortedLe (l ++ u :: r) = true := sortedLe_cons_of a _ h
    rcases List.mem_cons.mp hx with rfl | hxl
    · cases l with
      | nil =>
        rw [List.nil_append, sortedLe] at h
        exact of_decide_eq_true (Bool.and_eq_true_iff.mp h).1
      | cons b l2 =>
        rw [List.cons_append, sortedLe] at h
        have hab := of_decide_eq_true (Bool.and_eq_true_iff.mp h).1
        exact le_trans hab (ih u r h2 b (by simp))
    · exact ih u r h2 x hxl

/-- Dropping a prefix of elements that all fail a filter does not
change the filter's result. -/
theorem filter_dropWhile_eq {β : Type} (p pr : β → Bool) :
    ∀ l : List β, (∀ x, pr x = true → p x = false) →
      (l.dropWhile pr).filter p = l.filter p := by
  intro l
  induction l with
  | nil => intro _; rfl
  | cons a l ih =>
    intro h
    by_cases ha : pr a = true
    · rw [List.dropWhile_cons, if_pos ha, ih h, List.filter_cons]
      simp [h a ha]
    · rw [List.dropWhile_cons, if_neg ha]

/-- The filtered list embeds into the list with the prefix of
filter-failing elements dropped. -/
theorem filter_sublist_dropWhile_not {β : Type} (p : β → Bool) :
    ∀ l : List β, (l.filter p).Sublist (l.dropWhile (fun x => !(p x))) := by
  intro l
  induction l with
  | nil => simp
  | cons a l ih =>
    by_cases ha : p a = true
    · rw [List.dropWhile_cons, List.filter_cons]
      simp only [ha, Bool.not_true, if_pos rfl]
      simp only [if_neg (by simp : ¬ (false = true))]
      exact List.cons_sublist_cons.mpr (List.filter_sublist l)
    · have ha2 : p a = false := by
        cases h3 : p a with
        | true => exact absurd h3 ha
        | false => rfl
      rw [List.dropWhile_cons, List.filter_cons]
      simp only [ha2, Bool.not_false, if_pos rfl]
      exact ih

/-- The prune loop written as a dropWhile over the negated
within-window test. -/
theorem slidingPrune_eq_dropWhile_not {α : Type} [LinearOrderedAddCommGroup α]
    (W u : α) (q : List α) :
    slidingPrune W u q = q.dropWhile (fun x => !(decide (u - x ≤ W))) := by
  rw [slidingPrune]
  congr 1
  funext x
  simp only [← decide_not]
  exact decide_eq_decide.mpr not_le.symm

/-- The deque entries within the window of a later instant are no more
numerous than the entries the prune loop retains at that instant. -/
theorem length_filter_le_prune {α : Type} [LinearOrderedAddCommGroup α]
    (W u : α) (q : List α) :
    (q.filter (fun x => decide (u - x ≤ W))).length ≤ (slidingPrune W u q).length := by
  rw [slidingPrune_eq_dropWhile_not]
  exact (filter_sublist_dropWhile_not _ q).length_le

/-- Folding admissions at clock readings no later than u over a deque
keeps exactly the within-window-of-u entries of the deque and of the
admission times: prune steps drop only entries already outside u's
window. -/
theorem filter_queueAfter_steps {α : Type} [LinearOrderedAddCommGroup α] (W u : α) :
    ∀ steps q : List α, (∀ t ∈ steps, t ≤ u) →
      ((steps.foldl (fun acc t => slidingStep W t acc) q).filter
          (fun x => decide (u - x ≤ W)))
        = q.filter (fun x => decide (u - x ≤ W))
            ++ steps.filter (fun x => decide (u - x ≤ W)) := by
  intro steps
  induction steps with
  | nil => intro q _; simp
  | cons t ts ih =>
    intro q h
    rw [List.foldl_cons]
    have ht : t ≤ u := h t (by simp)
    have hdrop : (slidingStep W t q).filter (fun x => decide (u - x ≤ W))
        = q.filter (fun x => decide (u - x ≤ W))
            ++ [t].filter (fun x => decide (u - x ≤ W)) := by
      rw [slidingStep, List.filter_append]
      congr 1
      rw [slidingPrune]
      refine filter_dropWhile_eq _ _ q ?_
      intro x hx
      have hlt : W < t - x := of_decide_eq_true hx
      have hltu : W < u - x := lt_of_lt_of_le hlt (sub_le_sub_right ht x)
      exact decide_eq_false (not_le.mpr hltu)
    rw [ih (slidingStep W t q) (fun s hs => h s (by simp [hs])), hdrop, List.append_assoc]
    congr 1
    rw [← List.filter_append]
    rfl

/-- Extending the admission history by one step advances the deque by
one slidingStep. -/
theorem queueAfter_append_one {α : Type} [LinearOrderedAddCommGroup α]
    (W : α) (pre : List α) (t : α) :
    queueAfter W (pre ++ [t]) = slidingStep W t (queueAfter W pre) := by
  rw [queueAfter, queueAfter, List.foldl_append]
  rfl

/-- Key invariant extracted from a strict admission run: at the moment
an admission u happens, fewer than N of the earlier admissions (pre are
the admissions before this run, l those of this run before u) lie
within the window of length W ending at u. -/
theorem strictAdmits_filter_lt {α : Type} [LinearOrderedAddCommGroup α] :
    ∀ (tr pre : List α) (N : ℕ) (W : α),
      sortedLe (pre ++ tr) = true →
      strictAdmitsFrom N W (queueAfter W pre) tr = true →
      ∀ (l : List α) (u : α) (r : List α), tr = l ++ u :: r →
        ((pre ++ l).filter (fun x => decide (u - x ≤ W))).length < N := by
  intro tr
  induction tr with
  | nil =>
    intro pre N W _ _ l u r heq
    exact absurd heq (by simp)
  | cons t ts ih =>
    intro pre N W hs ha l u r heq
    rw [strictAdmitsFrom, Bool.and_eq_true] at ha
    obtain ⟨h1, h2⟩ := ha
    cases l with
    | nil =>
      rw [List.nil_append] at heq
      injection heq with hh1 hh2
      subst hh1
      subst hh2
      rw [List.append_nil]
      have hsz : (slidingPrune W t (queueAfter W pre)).length < N := of_decide_eq_true h1
      have hmem : ∀ x ∈ pre, x ≤ t := sortedLe_le_of_append pre t ts hs
      have hq : (queueAfter W pre).filter (fun x => decide (t - x ≤ W))
          = pre.filter (fun x => decide (t - x ≤ W)) := by
        have hfq := filter_queueAfter_steps W t pre [] hmem
        simpa [queueAfter] using hfq
      calc (pre.filter (fun x => decide (t - x ≤ W))).length
          = ((queueAfter W pre).filter (fun x => decide (t - x ≤ W))).length := by rw [hq]
        _ ≤ (slidingPrune W t (queueAfter W pre)).length :=
            length_filter_le_prune W t (queueAfter W pre)
        _ < N := hsz
    | cons x l2 =>
      rw [List.cons_append] at heq
      injection heq with hh1 hh2
      subst hh1
      have hs2 : sortedLe ((pre ++ [t]) ++ ts) = true := by
        rw [List.append_assoc]
        simpa using hs
      have ha2 : strictAdmitsFrom N W (queueAfter W (pre ++ [t])) ts = true := by
        rw [queueAfter_append_one]
        exact h2
      have hres := ih (pre ++ [t]) N W hs2 ha2 l2 u r hh2
      have hform : (pre ++ [t]) ++ l2 = pre ++ t :: l2 := by
        rw [List.append_assoc]
        rfl
      rw [hform] at hres
      exact hres

/-- Pointwise implication between filters bounds their lengths. -/
theorem length_filter_mono {β : Type} (p q2 : β → Bool) :
    ∀ l : List β, (∀ x ∈ l, p x = true → q2 x = true) →
      (l.filter p).length ≤ (l.filter q2).length := by
  intro l
  induction l with
  | nil => intro _; simp
  | cons a l ih =>
    intro h
    have ht := ih (fun x hx hp => h x (by simp [hx]) hp)
    by_cases hpa : p a = true
    · have hqa := h a (by simp) hpa
      rw [List.filter_cons, List.filter_cons, if_pos hpa, if_pos hqa]
      simpa using ht
    · rw [List.filter_cons, if_neg hpa]
      by_cases hqa : q2 a = true
      · rw [List.filter_cons, if_pos hqa]
        calc (l.filter p).length ≤ (l.filter q2).length := ht
          _ ≤ (a :: l.filter q2).length := by simp
      · rw [List.filter_cons, if_neg hqa]
        exact ht

/-- Any closed window of length W holds at most N admissions of a
nondecreasing trace each of whose admissions saw fewer than N earlier
admissions within W of it. -/
theorem windowCountClosed_le_of_good {α : Type} [LinearOrderedAddCommGroup α]
    (N : ℕ) (W s : α) :
    ∀ tr : List α, sortedLe tr = true →
      (∀ (l : List α) (u : α) (r : List α), tr = l ++ u :: r →
        ((l.filter (fun x => decide (u - x ≤ W))).length < N)) →
      windowCountClosed W s tr ≤ N := by
  intro tr
  induction tr using List.reverseRecOn with
  | nil => intro _ _; simp [windowCountClosed]
  | append_singleton l u ih =>
    intro hs hg
    have hsl : sortedLe l = true := sortedLe_append_left l [u] hs
    have hgl : ∀ (l2 : List α) (u2 : α) (r2 : List α), l = l2 ++ u2 :: r2 →
        ((l2.filter (fun x => decide (u2 - x ≤ W))).length < N) := by
      intro l2 u2 r2 heq
      refine hg l2 u2 (r2 ++ [u]) ?_
      rw [heq]
      simp
    have hbase := ih hsl hgl
    rw [windowCountClosed] at hbase ⊢
    rw [List.filter_append, List.length_append]
    by_cases hu : (decide (s ≤ u) && decide (u ≤ s + W)) = true
    · obtain ⟨hu1, hu2⟩ := Bool.and_eq_true_iff.mp hu
      have hus : s ≤ u := of_decide_eq_true hu1
      have husw : u ≤ s + W := of_decide_eq_true hu2
      have hcnt : (l.filter (fun x => decide (s ≤ x) && decide (x ≤ s + W))).length
          ≤ (l.filter (fun x => decide (u - x ≤ W))).length := by
        refine length_filter_mono _ _ l ?_
        intro x _ hpx
        obtain ⟨hx1, _⟩ := Bool.and_eq_true_iff.mp hpx
        have hsx : s ≤ x := of_decide_eq_true hx1
        have hxw : u ≤ x + W := le_trans husw (add_le_add_right hsx W)
        have : u - x ≤ W := sub_le_iff_le_add.mpr (by rwa [add_comm] at hxw)
        exact decide_eq_true this
      have hlt := hg l u [] rfl
      have hone : ([u].filter (fun x => decide (s ≤ x) && decide (x ≤ s + W))).length ≤ 1 := by
        simpa using List.length_filter_le (fun x => decide (s ≤ x) && decide (x ≤ s + W)) [u]
      omega
    · have hu2 : (decide (s ≤ u) && decide (u ≤ s + W)) = false := by
        cases h3 : (decide (s ≤ u) && decide (u ≤ s + W)) with
        | true => exact absurd h3 hu
        | false => rfl
      rw [List.filter_cons, if_neg (by simp [hu2])]
      simpa using hbase

/-- A strict admission run is in particular an admission run of the
code (the size test is one of the two ways acquire admits). -/
theorem strictAdmits_admits {α : Type} [LinearOrderedAddCommGroup α] (N : ℕ) (W : α) :
    ∀ tr q : List α, strictAdmitsFrom N W q tr = true → admitsFrom N W q tr = true := by
  intro tr
  induction tr with
  | nil => intro q _; rfl
  | cons t ts ih =>
    intro q h
    rw [strictAdmitsFrom, Bool.and_eq_true] at h
    obtain ⟨h1, h2⟩ := h
    rw [admitsFrom, Bool.and_eq_true]
    constructor
    · rw [slidingCanAdmit]
      simp only [if_pos (of_decide_eq_true h1)]
    · exact ih (slidingStep W t q) h2

/-- Claim C2 counterexample.  The limiter configured with
max_requests_per_time 2 and time_window_seconds 10 admits the clock
trace 0, 0, 10, 10, 10 (each acquire passes the code's admission test:
at reading 10 the head timestamp 0 is exactly 10 old, so it is not
pruned — the pop condition is strict — while the computed wait
10 - (10 - 0) = 0 fails the `0 < timeout` test and the code appends
without sleeping).  The half-open window hanging at 10 then holds the
three admissions at 10, and the closed window from 1 to 11 holds them
too: both exceed 2, so the claimed bound fails on this execution. -/
theorem slidingWindow_boundary_overadmission :
    AdmissibleTrace 2 10 [(0 : ℤ), 0, 10, 10, 10] ∧
      2 < windowCount 10 0 [(0 : ℤ), 0, 10, 10, 10] ∧
      2 < windowCountClosed 10 1 [(0 : ℤ), 0, 10, 10, 10] := by
  refine ⟨⟨by decide, by decide⟩, by decide, by decide⟩

/-- Claim C2 (amended).  Over any window of time_window_seconds the
number of admissions never exceeds max_requests_per_time, provided
every acquire is admitted by the size test (retained count strictly
below max_requests_per_time) rather than by the zero-wait boundary
branch that fires when the clock reads exactly time_window_seconds
after the oldest retained timestamp.  Such a run is in particular an
execution of the code, and the bound holds for every closed (hence
every half-open) window of length W. -/
theorem slidingWindow_bound_of_strict {α : Type} [LinearOrderedAddCommGroup α]
    (N : ℕ) (W : α) (tr : List α) (hs : sortedLe tr = true)
    (ha : strictAdmitsFrom N W [] tr = true) :
    admitsFrom N W [] tr = true ∧ ∀ s : α, windowCountClosed W s tr ≤ N := by
  constructor
  · exact strictAdmits_admits N W tr [] ha
  · intro s
    refine windowCountClosed_le_of_good N W s tr hs ?_
    intro l u r heq
    have hq0 : queueAfter W ([] : List α) = [] := rfl
    have hres := strictAdmits_filter_lt tr [] N W (by simpa using hs) (by rw [hq0]; exact ha)
      l u r heq
    simpa using hres

/-- Claim C2 witness: the strict-run bound applied to the concrete
trace 0, 11 for a limiter with max_requests_per_time 1 and window 10:
the trace is admissible and every closed 10-second window holds at most
one admission (checked at the window starting at 0). -/
theorem slidingWindow_bound_of_strict_witness :
    sortedLe [(0 : ℤ), 11] = true ∧
      strictAdmitsFrom 1 10 ([] : List ℤ) [0, 11] = true ∧
      admitsFrom 1 10 ([] : List ℤ) [0, 11] = true ∧
      windowCountClosed 10 0 [(0 : ℤ), 11] ≤ 1 := by
  have h := slidingWindow_bound_of_strict 1 10 [(0 : ℤ), 11] (by decide) (by decide)
  exact ⟨by decide, by decide, h.1, h.2 0⟩
